import Mathlib

/-!
# Veritas rewriting VM: the growable array, the rule scheduler and the stepper

A shallow embedding of `src/vm/common.h`, `src/vm/array.c` and `src/vm/vm.c`.

* `U64` values are natural numbers; the `U64` operations of array.c that can
  wrap (the byte size, the doubled capacity, `length++`, and in the addressed
  view the byte offset) are written with an explicit `% U64_MOD`.
* A C function that writes through a pointer argument takes the pointee and
  returns its new value.
* `malloc`ed storage is a map to the element stored, `none` being storage that
  was never written (its content is indeterminate in C); the size of an
  allocation is not tracked. `array_get`, `array_set` and `array_push` see the
  storage slot by slot; `addressed_array_get`, `addressed_array_set` and
  `addressed_array_push` see it by the `U64` byte offset that array.c 20 computes,
  so that two indices whose offsets coincide modulo 2^64 share their storage. The
  two views agree on every index whose byte offset does not wrap.
* Code that can divide by zero returns `Option`, `none` being the fault.
-/

namespace Veritas

/-! ## common.h -/

/-- Number of values of a `U64` (`uint64_t`). -/
def U64_MOD : Nat := 2 ^ 64

/-- The `Array` struct of common.h: `length`, `capacity`, `elementSize` are the
`U64` header fields; `data` is the storage behind the `void *`, keyed by slot in
the slot view (`data + index * elementSize` is slot `index`) and by byte offset in
the addressed view; `none` is storage never written. -/
structure Array (α : Type) where
  length : Nat
  capacity : Nat
  elementSize : Nat
  data : Nat → Option α

/-! ## array.c -/

/-- Function `create_array` (array.c 3-12). `none` is the division by zero of
`initial_size / elementSize`; the `malloc`ed storage has no slot written. -/
def create_array (α : Type) (length elementSize : Nat) : Option (Array α) :=
  let initial_size := 64
  let new_length : Option Nat :=
    if length * elementSize % U64_MOD ≥ initial_size then some length
    else if elementSize ≥ initial_size then some 1
    else if elementSize = 0 then none
    else some (initial_size / elementSize)
  match new_length with
  | none => none
  | some length =>
    some { length := length, capacity := length, elementSize := elementSize,
           data := fun _ => none }

/-- Function `array_get` (array.c 19-21), slot view: the content of slot `index`.
The byte offset `index * elementSize` is not reduced modulo 2^64 here; that is
`addressed_array_get`. -/
def array_get {α : Type} (array : Array α) (index : Nat) : Option α :=
  array.data index

/-- Function `array_set` (array.c 23-25), slot view: `memcpy` of one element into
slot `index`. The byte offset is not reduced modulo 2^64 here; that is
`addressed_array_set`. -/
def array_set {α : Type} (array : Array α) (index : Nat) (value : α) : Array α :=
  { array with data := fun k => if k = index then some value else array.data k }

/-- Function `array_push` (array.c 27-34), slot view: double the capacity when full
(`realloc` keeps the stored elements), write the slot at `length`, then `length++`. -/
def array_push {α : Type} (array : Array α) (value : α) : Array α :=
  let array :=
    if array.length = array.capacity then
      { array with capacity := array.capacity * 2 % U64_MOD }
    else array
  let array := array_set array array.length value
  { array with length := (array.length + 1) % U64_MOD }

/-! ## array.c with the byte offsets in U64 -/

/-- The byte offset `index * array->elementSize` that array.c 20 adds to `data`: a
`U64` product, reduced modulo 2^64. -/
def byte_offset {α : Type} (array : Array α) (index : Nat) : Nat :=
  index * array.elementSize % U64_MOD

/-- The number of bytes `create_array` and `array_push` ask of `malloc` and
`realloc` for the storage: `capacity * elementSize`, a `U64` product. -/
def storage_bytes {α : Type} (array : Array α) : Nat :=
  array.capacity * array.elementSize % U64_MOD

/-- Function `array_get` (array.c 19-21), addressed view: the element stored at
`data + index * elementSize`; `data` is keyed by byte offset. -/
def addressed_array_get {α : Type} (array : Array α) (index : Nat) : Option α :=
  array.data (byte_offset array index)

/-- Function `array_set` (array.c 23-25), addressed view: `memcpy` of one element
to `data + index * elementSize`; `data` is keyed by byte offset. -/
def addressed_array_set {α : Type} (array : Array α) (index : Nat) (value : α) : Array α :=
  { array with
    data := fun b => if b = byte_offset array index then some value else array.data b }

/-- Function `array_push` (array.c 27-34), addressed view: double the capacity
when full (`realloc` keeps the stored elements), write at the byte offset of index
`length`, then `length++`. -/
def addressed_array_push {α : Type} (array : Array α) (value : α) : Array α :=
  let array :=
    if array.length = array.capacity then
      { array with capacity := array.capacity * 2 % U64_MOD }
    else array
  let array := addressed_array_set array array.length value
  { array with length := (array.length + 1) % U64_MOD }

/-! ## vm.c: types -/

/-- Modelled from the spec: the term representation behind `typedef U8 * Value`
is not declared in the sources; section 3 gives `Atom(byte value)`,
`Sequence(ordered list of Term)` and `Variable(identifier)`. A sequence carries
the `values` that vm.c reads as `value->values[i]`, its `valueCount` being their
number. -/
inductive Term where
  | Atom (value : Nat)
  | Sequence (values : List Term)
  | Variable (identifier : Nat)

/-- The `Value` of vm.c 4. -/
abbrev Value := Term

/-- Modelled from the spec: `ValueArray` is used by vm.c but not declared in the
sources; it is read through `valueCount` only, here the length of the list. -/
abbrev ValueArray := List Value

/-- The `valueCount` field of a `ValueArray`. -/
def valueCount (values : ValueArray) : Nat := values.length

/-- Modelled from the spec: `isSeq` is called by vm.c but not defined in the
sources; section 4.1 gives it as the predicate that tells compound terms from
atomic ones. -/
def isSeq : Value → Bool
  | Term.Sequence _ => true
  | _ => false

/-- Type `RuleIndex` (vm.c 12). -/
abbrev RuleIndex := Nat

/-- Type `Rule` (vm.c 14-17). -/
structure Rule where
  top : ValueArray
  bottom : ValueArray

/-- Type `UnifyState` (vm.c 19-22). -/
structure UnifyState where
  lhs : Value
  rhs : Value

/-- Type `UnifierArray` (vm.c 7). -/
abbrev UnifierArray := Array UnifyState

/-- Type `RuleState` (vm.c 24-28); `env` holds what `create_array(0, sizeof(Value))`
returns. -/
structure RuleState where
  env : Array Value
  unifiers : UnifierArray
  ruleIndex : RuleIndex

/-- Type `RuleStateArray` (vm.c 8). -/
abbrev RuleStateArray := Array RuleState

/-- Type `Path` (vm.c 30-33). -/
structure Path where
  length : Nat
  rules : List RuleIndex

/-- Type `RuleArray` (vm.c 6), read by vm.c through `ruleCount` and `array_get` only:
the rules in declaration order, `ruleCount` being their number. -/
abbrev RuleArray := List Rule

/-- Type `Program` (vm.c 35-38). -/
structure Program where
  rules : RuleArray
  value : Value

/-- Type `ProgramResult` (vm.c 40-43). -/
structure ProgramResult where
  program : Program
  path : Path

/-- Type `ProgramResultArray` (vm.c 9). -/
abbrev ProgramResultArray := Array ProgramResult

/-- Type `CycleState` (vm.c 45-49). -/
structure CycleState where
  state : ProgramResult
  pending : RuleStateArray
  complete : ProgramResultArray

/-- Type `CycleStateArray` (vm.c 10). -/
abbrev CycleStateArray := Array CycleState

/-- Type `ProgramState` (vm.c 51-54). -/
structure ProgramState where
  cycles : CycleStateArray
  results : ProgramResultArray

/-- Size `sizeof(Value)`: a `U8 *`, 8 bytes where `U64` indexes memory. -/
def sizeof_Value : Nat := 8

/-- Size `sizeof(UnifyState)`: two `Value` pointers. -/
def sizeof_UnifyState : Nat := 2 * sizeof_Value

/-! ## vm.c: spawn_pending -/

/-- The inner loop of `spawn_pending` (vm.c 59-64) for rule `i`; the first
argument is the number of iterations left, `rule.top.valueCount - j`. -/
def spawn_alternatives (i : RuleIndex) : Nat → RuleStateArray → Option RuleStateArray
  | 0, result => some result
  | n + 1, result => do
    let unifiers ← create_array UnifyState 1 sizeof_UnifyState
    let env ← create_array Value 0 sizeof_Value
    let ruleState : RuleState := { env := env, unifiers := unifiers, ruleIndex := i }
    spawn_alternatives i n (array_push result ruleState)

/-- The outer loop of `spawn_pending` (vm.c 57-65) from rule index `i` on; the
first argument holds the rules `i`, `i + 1`, ... still to visit. -/
def spawn_rules : RuleArray → RuleIndex → RuleStateArray → Option RuleStateArray
  | [], _, result => some result
  | rule :: rest, i, result => do
    let result ← spawn_alternatives i (valueCount rule.top) result
    spawn_rules rest (i + 1) result

mutual
/-- The body of `spawn_pending` (vm.c 56-74) on the program `{rules, value}`; it
returns the program after the call together with the result list. -/
def spawn_pending_at (rules : RuleArray) : Value → RuleStateArray →
    Option (Program × RuleStateArray)
  | Term.Sequence values, result => do
    let program : Program := { rules := rules, value := Term.Sequence values }
    let result ← spawn_rules program.rules 0 result
    let result ← spawn_children rules values result
    pure (program, result)
  | Term.Atom a, result => do
    let program : Program := { rules := rules, value := Term.Atom a }
    let result ← spawn_rules program.rules 0 result
    pure (program, result)
  | Term.Variable x, result => do
    let program : Program := { rules := rules, value := Term.Variable x }
    let result ← spawn_rules program.rules 0 result
    pure (program, result)
/-- The loop over the children (vm.c 68-72): each child gets a `Program` of its
own, built here from the rules of the enclosing call and the child value, as
section 4.3 has it. In vm.c 70 the initializer of the local `program` spells the
rules `program->rules`, a name that C scoping binds to that local itself. -/
def spawn_children (rules : RuleArray) : List Value → RuleStateArray →
    Option RuleStateArray
  | [], result => some result
  | value :: rest, result => do
    let program : Program := { rules := rules, value := value }
    let (_, result) ← spawn_pending_at program.rules program.value result
    spawn_children rules rest result
end

/-- Function `spawn_pending` (vm.c 56-74). -/
def spawn_pending (program : Program) (result : RuleStateArray) :
    Option (Program × RuleStateArray) :=
  spawn_pending_at program.rules program.value result

/-! ## vm.c: spawn_pending over the addressed array -/

/-- The inner loop of `spawn_pending` (vm.c 59-64) as `spawn_alternatives`, with
`array_push` in its addressed view. -/
def addressed_spawn_alternatives (i : RuleIndex) :
    Nat → RuleStateArray → Option RuleStateArray
  | 0, result => some result
  | n + 1, result => do
    let unifiers ← create_array UnifyState 1 sizeof_UnifyState
    let env ← create_array Value 0 sizeof_Value
    let ruleState : RuleState := { env := env, unifiers := unifiers, ruleIndex := i }
    addressed_spawn_alternatives i n (addressed_array_push result ruleState)

/-- The outer loop of `spawn_pending` (vm.c 57-65) as `spawn_rules`, over the
addressed view. -/
def addressed_spawn_rules : RuleArray → RuleIndex → RuleStateArray → Option RuleStateArray
  | [], _, result => some result
  | rule :: rest, i, result => do
    let result ← addressed_spawn_alternatives i (valueCount rule.top) result
    addressed_spawn_rules rest (i + 1) result

mutual
/-- The body of `spawn_pending` (vm.c 56-74) as `spawn_pending_at`, over the
addressed view. -/
def addressed_spawn_pending_at (rules : RuleArray) : Value → RuleStateArray →
    Option (Program × RuleStateArray)
  | Term.Sequence values, result => do
    let program : Program := { rules := rules, value := Term.Sequence values }
    let result ← addressed_spawn_rules program.rules 0 result
    let result ← addressed_spawn_children rules values result
    pure (program, result)
  | Term.Atom a, result => do
    let program : Program := { rules := rules, value := Term.Atom a }
    let result ← addressed_spawn_rules program.rules 0 result
    pure (program, result)
  | Term.Variable x, result => do
    let program : Program := { rules := rules, value := Term.Variable x }
    let result ← addressed_spawn_rules program.rules 0 result
    pure (program, result)
/-- The loop over the children (vm.c 68-72) as `spawn_children`, over the addressed
view. -/
def addressed_spawn_children (rules : RuleArray) : List Value → RuleStateArray →
    Option RuleStateArray
  | [], result => some result
  | value :: rest, result => do
    let program : Program := { rules := rules, value := value }
    let (_, result) ← addressed_spawn_pending_at program.rules program.value result
    addressed_spawn_children rules rest result
end

/-- Function `step` (vm.c 76-83): return when `cycles` is empty; otherwise read the top
frame and test its `pending` length; the branch taken when it is 0 has an empty
body and there is no other branch. A top slot that was never written gives no
frame to test; the function has no statement after the test either way. -/
def step (state : ProgramState) : ProgramState :=
  if state.cycles.length = 0 then state
  else
    match array_get state.cycles (state.cycles.length - 1) with
    | none => state
    | some cycle =>
      if cycle.pending.length = 0 then state
      else state

/-! ## The unifier (section 4.2; not in the sources) -/

/-- Modelled from the spec: the `Environment` of section 3, a mapping from
variable identifier to term, here the list of bindings, newest first; the sources
hold no unifier and no environment operation. -/
abbrev Environment := List (Nat × Term)

/-- Modelled from the spec: the empty environment `emptyEnv` of section 8. -/
def emptyEnv : Environment := []

/-- Modelled from the spec: the term an identifier is bound to in an environment,
if any. -/
def env_lookup : Environment → Nat → Option Term
  | [], _ => none
  | (y, t) :: rest, x => if y = x then some t else env_lookup rest x

/-- Modelled from the spec: the reasons for which unification fails (sections 4.2
and 7): atom inequality, arity mismatch, mismatched shapes, and the occurs-check
when that policy is on. -/
inductive UnifyFailure where
  | atom_inequality
  | arity_mismatch
  | shape_mismatch
  | occurs_check

mutual
/-- Modelled from the spec: whether variable `x` occurs in a term, for the
occurs-check policy of section 4.2. -/
def occurs (x : Nat) : Term → Bool
  | Term.Sequence values => occurs_in_list x values
  | Term.Atom _ => false
  | Term.Variable y => x == y
/-- Modelled from the spec: whether variable `x` occurs in a term of the list. -/
def occurs_in_list (x : Nat) : List Term → Bool
  | [] => false
  | value :: rest => occurs x value || occurs_in_list x rest
end

/-- Modelled from the spec: the unifier of section 4.2 over a queue of `UnifyState`
obligations, the sources holding none. The head obligation is resolved and the
rest follows: a variable is bound when unbound, and its binding is unified with
the other term when bound; two atoms must be equal; two sequences must have the
same arity and put one obligation per pair of elements in front of the queue;
any other pair of shapes fails. `checked` is the occurs-check policy. The first
argument bounds the number of obligations resolved, `none` being that bound run
out. -/
def unify_queue (checked : Bool) :
    Nat → List UnifyState → Environment → Option (Except UnifyFailure Environment)
  | _, [], env => some (Except.ok env)
  | 0, _ :: _, _ => none
  | fuel + 1, u :: rest, env =>
    match u.lhs, u.rhs with
    | Term.Variable x, other =>
      match env_lookup env x with
      | some bound => unify_queue checked fuel ({ lhs := bound, rhs := other } :: rest) env
      | none =>
        if checked && occurs x other then some (Except.error UnifyFailure.occurs_check)
        else unify_queue checked fuel rest ((x, other) :: env)
    | Term.Atom a, Term.Variable x =>
      match env_lookup env x with
      | some bound => unify_queue checked fuel ({ lhs := Term.Atom a, rhs := bound } :: rest) env
      | none => unify_queue checked fuel rest ((x, Term.Atom a) :: env)
    | Term.Sequence values, Term.Variable x =>
      match env_lookup env x with
      | some bound =>
        unify_queue checked fuel ({ lhs := Term.Sequence values, rhs := bound } :: rest) env
      | none =>
        if checked && occurs x (Term.Sequence values) then
          some (Except.error UnifyFailure.occurs_check)
        else unify_queue checked fuel rest ((x, Term.Sequence values) :: env)
    | Term.Atom a, Term.Atom b =>
      if a = b then unify_queue checked fuel rest env
      else some (Except.error UnifyFailure.atom_inequality)
    | Term.Sequence ls, Term.Sequence rs =>
      if ls.length = rs.length then
        unify_queue checked fuel (List.zipWith UnifyState.mk ls rs ++ rest) env
      else some (Except.error UnifyFailure.arity_mismatch)
    | Term.Atom _, Term.Sequence _ => some (Except.error UnifyFailure.shape_mismatch)
    | Term.Sequence _, Term.Atom _ => some (Except.error UnifyFailure.shape_mismatch)

/-- Modelled from the spec: `unify(lhs, rhs, env)` of section 4.2, the queue
seeded with the one obligation `{lhs, rhs}`. -/
def unify (checked : Bool) (fuel : Nat) (lhs rhs : Value) (env : Environment) :
    Option (Except UnifyFailure Environment) :=
  unify_queue checked fuel [{ lhs := lhs, rhs := rhs }] env

/-! ## Observation and statement vocabulary -/

/-- The elements an array holds, slot 0 to slot `length - 1`. -/
def entries {α : Type} (array : Array α) : List (Option α) :=
  (List.range array.length).map (array_get array)

/-- Successive `array_push` calls, one per element of the list, in order. -/
def push_all {α : Type} (array : Array α) (values : List α) : Array α :=
  values.foldl array_push array

/-- Successive `array_push` calls in the addressed view, one per element of the
list, in order. -/
def addressed_push_all {α : Type} (array : Array α) (values : List α) : Array α :=
  values.foldl addressed_array_push array

/-! ## The stepper and the driver (sections 4.4 and 4.5; not in the sources) -/

/-- What `create_array(0, sizeof(Value))` returns (vm.c 61). -/
def created_env : Array Value :=
  { length := 8, capacity := 8, elementSize := 8, data := fun _ => none }

/-- What `create_array(1, sizeof(UnifyState))` returns (vm.c 60). -/
def created_unifiers : UnifierArray :=
  { length := 4, capacity := 4, elementSize := 16, data := fun _ => none }

/-- The `ruleState` that one iteration of the inner loop builds for rule `i`
(vm.c 60-62). -/
def built_candidate (i : RuleIndex) : RuleState :=
  { env := created_env, unifiers := created_unifiers, ruleIndex := i }

/-- The values the outer loop pushes from rule index `i` on, in push order. -/
def pushed_by_rules : RuleArray → RuleIndex → List RuleState
  | [], _ => []
  | rule :: rest, i =>
    List.replicate (valueCount rule.top) (built_candidate i) ++ pushed_by_rules rest (i + 1)

mutual
/-- The values one call of `spawn_pending` pushes, in push order. -/
def pushed_at (rules : RuleArray) : Value → List RuleState
  | Term.Sequence values => pushed_by_rules rules 0 ++ pushed_by_children rules values
  | Term.Atom _ => pushed_by_rules rules 0
  | Term.Variable _ => pushed_by_rules rules 0
/-- The values the loop over the children pushes, in push order. -/
def pushed_by_children (rules : RuleArray) : List Value → List RuleState
  | [] => []
  | value :: rest => pushed_at rules value ++ pushed_by_children rules rest
end

mutual
/-- The number of nodes of a term: the root plus every nested sub-term at every
depth; an atom or a variable has 1. -/
def nodes : Term → Nat
  | Term.Sequence values => 1 + nodes_of_list values
  | Term.Atom _ => 1
  | Term.Variable _ => 1
/-- The number of nodes of the terms of a list, summed. -/
def nodes_of_list : List Term → Nat
  | [] => 0
  | value :: rest => nodes value + nodes_of_list rest
end

/-- The number of pattern alternatives of a rule set: the sum, over all rules,
of the number of elements of the top of the rule. -/
def alternatives (rules : RuleArray) : Nat :=
  (rules.map (fun rule => valueCount rule.top)).sum

mutual
/-- The sub-terms of a term in pre-order, left to right, the term itself first. -/
def subterms : Term → List Term
  | Term.Sequence values => Term.Sequence values :: subterms_of_list values
  | Term.Atom a => [Term.Atom a]
  | Term.Variable x => [Term.Variable x]
/-- The sub-terms of the terms of a list, each block in pre-order, in list order. -/
def subterms_of_list : List Term → List Term
  | [] => []
  | value :: rest => subterms value ++ subterms_of_list rest
end

/-- The rule indices in ascending order, index `i` repeated as many times as the
top of rule `i` has alternatives. -/
def rule_order (rules : RuleArray) : List RuleIndex :=
  rules.enum.flatMap (fun ir => List.replicate (valueCount ir.2.top) ir.1)

/-- The fixed search order: the concatenation of `rule_order`, once per sub-term
in pre-order. -/
def search_order (rules : RuleArray) (value : Value) : List RuleIndex :=
  (subterms value).flatMap (fun _ => rule_order rules)

/-- The well-formedness of an array: `1 <= capacity` and `length <= capacity`. -/
@[reducible] def well_formed {α : Type} (array : Array α) : Prop :=
  1 ≤ array.capacity ∧ array.length ≤ array.capacity

/-- The reported length of `create_array(n, s)` as the claim on it gives it: `n`
if `n * s` (modulo 2^64) is at least 64, else 1 if `s` is at least 64, else
`floor(64 / s)`. -/
def reported_length (n s : Nat) : Nat :=
  if n * s % U64_MOD ≥ 64 then n else if s ≥ 64 then 1 else 64 / s

mutual
/-- Whether a term holds no variable. -/
def variable_free : Term → Bool
  | Term.Sequence values => variable_free_list values
  | Term.Atom _ => true
  | Term.Variable _ => false
/-- Whether no term of the list holds a variable. -/
def variable_free_list : List Term → Bool
  | [] => true
  | value :: rest => variable_free value && variable_free_list rest
end

/-- The number of nodes of the left-hand sides of a queue of obligations. -/
def queue_nodes : List UnifyState → Nat
  | [] => 0
  | u :: rest => nodes u.lhs + queue_nodes rest

/-! ## Sample inputs -/

/-- An empty result list with room for one element. -/
def sample_result : RuleStateArray :=
  { length := 0, capacity := 1, elementSize := 24, data := fun _ => none }

/-- One rule `a -> b` and the value `a`. -/
def single_rule_program : Program :=
  { rules := [{ top := [Term.Atom 97], bottom := [Term.Atom 98] }], value := Term.Atom 97 }

/-- A result that is the sample program with an empty path. -/
def sample_program_result : ProgramResult :=
  { program := single_rule_program, path := { length := 0, rules := [] } }

/-- A frame whose `pending` is empty and whose `complete` holds one result. -/
def exhausted_frame : CycleState :=
  { state := sample_program_result,
    pending := sample_result,
    complete := array_push { length := 0, capacity := 1, elementSize := 40, data := fun _ => none }
      sample_program_result }

/-- A state whose only frame is exhausted and whose `results` is empty. -/
def exhausted_state : ProgramState :=
  { cycles := array_push { length := 0, capacity := 1, elementSize := 112, data := fun _ => none }
      exhausted_frame,
    results := { length := 0, capacity := 1, elementSize := 40, data := fun _ => none } }

/-- A frame whose `pending` holds the candidates of rule 0 and rule 1, in that
order. -/
def pending_frame : CycleState :=
  { state := sample_program_result,
    pending := push_all sample_result [built_candidate 0, built_candidate 1],
    complete := { length := 0, capacity := 1, elementSize := 40, data := fun _ => none } }

/-- A state whose only frame has two pending candidates. -/
def pending_state : ProgramState :=
  { cycles := array_push { length := 0, capacity := 1, elementSize := 112, data := fun _ => none }
      pending_frame,
    results := { length := 0, capacity := 1, elementSize := 40, data := fun _ => none } }

/-- A state with no frame and one accumulated result. -/
def done_state : ProgramState :=
  { cycles := { length := 0, capacity := 1, elementSize := 112, data := fun _ => none },
    results := array_push { length := 0, capacity := 1, elementSize := 40, data := fun _ => none }
      sample_program_result }

/-- What `create_array(2^61 + 8, 8)` returns: the byte size `(2^61 + 8) * 8` is 64
modulo 2^64, so the length stays `2^61 + 8` over a storage of 64 bytes. -/
def wrapped_array : Option (Array Nat) :=
  create_array Nat (2 ^ 61 + 8) 8

/-- The array `create_array(2^61 + 8, 8)` after `array_set` at index 0 of the
value 97. -/
def wrapped_array_set : Option (Array Nat) :=
  wrapped_array.map (fun a => addressed_array_set a 0 97)

/-- The array `create_array(2^61 + 8, 8)` after `array_push` of the value 0, which
grows the storage to 128 bytes, and `array_set` at index 9 of the value 97. -/
def wrapped_array_pushed : Option (Array Nat) :=
  wrapped_array.map (fun a => addressed_array_set (addressed_array_push a 0) 9 97)

/-- A full array holding the atoms `a` and `b`. -/
def full_values : Array Value :=
  { length := 2, capacity := 2, elementSize := 8,
    data := fun k => if k = 0 then some (Term.Atom 97) else
      if k = 1 then some (Term.Atom 98) else none }

/-- A variable-free term with 4 nodes. -/
def ground_term : Term :=
  Term.Sequence [Term.Atom 97, Term.Sequence [Term.Atom 98]]

/-! ## The array -/

theorem array_push_length {α : Type} (array : Array α) (value : α) :
    (array_push array value).length = (array.length + 1) % U64_MOD := by
  unfold array_push array_set
  split <;> rfl

theorem push_all_append {α : Type} (array : Array α) (xs ys : List α) :
    push_all array (xs ++ ys) = push_all (push_all array xs) ys := by
  simp [push_all, List.foldl_append]

theorem create_array_env : create_array Value 0 sizeof_Value = some created_env := rfl

theorem create_array_unifiers :
    create_array UnifyState 1 sizeof_UnifyState = some created_unifiers := rfl

theorem spawn_alternatives_eq (i : RuleIndex) (n : Nat) :
    ∀ result : RuleStateArray,
      spawn_alternatives i n result
        = some (push_all result (List.replicate n (built_candidate i))) := by
  induction n with
  | zero => intro result; rfl
  | succ n ih =>
    intro result
    simp only [spawn_alternatives, create_array_env, create_array_unifiers, Option.bind_eq_bind,
      Option.some_bind, ih, List.replicate_succ, push_all, List.foldl_cons]
    rfl

theorem spawn_rules_eq (rules : RuleArray) :
    ∀ (i : RuleIndex) (result : RuleStateArray),
      spawn_rules rules i result = some (push_all result (pushed_by_rules rules i)) := by
  induction rules with
  | nil => intro i result; rfl
  | cons rule rest ih =>
    intro i result
    simp only [spawn_rules, spawn_alternatives_eq, Option.bind_eq_bind, Option.some_bind, ih,
      pushed_by_rules, push_all_append]

mutual
theorem spawn_pending_at_eq (rules : RuleArray) :
    ∀ (value : Value) (result : RuleStateArray),
      spawn_pending_at rules value result
        = some ({ rules := rules, value := value }, push_all result (pushed_at rules value))
  | Term.Sequence values, result => by
    simp only [spawn_pending_at, spawn_rules_eq, Option.bind_eq_bind, Option.some_bind,
      spawn_children_eq rules values, pushed_at, push_all_append, Option.pure_def]
  | Term.Atom a, result => by
    simp only [spawn_pending_at, spawn_rules_eq, Option.bind_eq_bind, Option.some_bind,
      pushed_at, Option.pure_def]
  | Term.Variable x, result => by
    simp only [spawn_pending_at, spawn_rules_eq, Option.bind_eq_bind, Option.some_bind,
      pushed_at, Option.pure_def]
theorem spawn_children_eq (rules : RuleArray) :
    ∀ (values : List Value) (result : RuleStateArray),
      spawn_children rules values result
        = some (push_all result (pushed_by_children rules values))
  | [], result => rfl
  | value :: rest, result => by
    simp only [spawn_children, spawn_pending_at_eq rules value, Option.bind_eq_bind,
      Option.some_bind, spawn_children_eq rules rest, pushed_by_children, push_all_append]
end

theorem spawn_pending_leaf (program : Program) (result : RuleStateArray)
    (hleaf : isSeq program.value = false) :
    spawn_pending program result
      = (spawn_rules program.rules 0 result).map (fun r => (program, r)) := by
  obtain ⟨rules, value⟩ := program
  cases value with
  | Sequence values => simp [isSeq] at hleaf
  | Atom a => simp [spawn_pending, spawn_pending_at, spawn_rules_eq]
  | Variable x => simp [spawn_pending, spawn_pending_at, spawn_rules_eq]

/-! ## Counting and ordering the pushed candidates -/

theorem pushed_by_rules_length (rules : RuleArray) :
    ∀ i : RuleIndex, (pushed_by_rules rules i).length = alternatives rules := by
  induction rules with
  | nil => intro i; rfl
  | cons rule rest ih =>
    intro i
    simp [pushed_by_rules, alternatives, ih (i + 1)]

mutual
theorem pushed_at_length (rules : RuleArray) :
    ∀ value : Value, (pushed_at rules value).length = nodes value * alternatives rules
  | Term.Sequence values => by
    simp only [pushed_at, nodes, List.length_append, pushed_by_rules_length,
      pushed_by_children_length rules values]
    ring
  | Term.Atom a => by simp [pushed_at, nodes, pushed_by_rules_length]
  | Term.Variable x => by simp [pushed_at, nodes, pushed_by_rules_length]
theorem pushed_by_children_length (rules : RuleArray) :
    ∀ values : List Value,
      (pushed_by_children rules values).length = nodes_of_list values * alternatives rules
  | [] => by simp [pushed_by_children, nodes_of_list]
  | value :: rest => by
    simp only [pushed_by_children, nodes_of_list, List.length_append, pushed_at_length rules value,
      pushed_by_children_length rules rest]
    ring
end

theorem pushed_by_rules_index (rules : RuleArray) :
    ∀ i : RuleIndex,
      (pushed_by_rules rules i).map RuleState.ruleIndex
        = (rules.enumFrom i).flatMap (fun ir => List.replicate (valueCount ir.2.top) ir.1) := by
  induction rules with
  | nil => intro i; rfl
  | cons rule rest ih =>
    intro i
    simp [pushed_by_rules, List.enumFrom_cons, ih (i + 1), built_candidate]

mutual
theorem pushed_at_index (rules : RuleArray) :
    ∀ value : Value,
      (pushed_at rules value).map RuleState.ruleIndex = search_order rules value
  | Term.Sequence values => by
    have h := pushed_by_children_index rules values
    simp only [pushed_at, List.map_append, pushed_by_rules_index, h, search_order, subterms,
      List.flatMap_cons, rule_order, List.enum]
  | Term.Atom a => by
    simp [pushed_at, pushed_by_rules_index, search_order, subterms, rule_order, List.enum]
  | Term.Variable x => by
    simp [pushed_at, pushed_by_rules_index, search_order, subterms, rule_order, List.enum]
theorem pushed_by_children_index (rules : RuleArray) :
    ∀ values : List Value,
      (pushed_by_children rules values).map RuleState.ruleIndex
        = (subterms_of_list values).flatMap (fun _ => rule_order rules)
  | [] => by simp [pushed_by_children, subterms_of_list]
  | value :: rest => by
    have h1 := pushed_at_index rules value
    have h2 := pushed_by_children_index rules rest
    simp only [pushed_by_children, List.map_append, h1, h2, subterms_of_list, search_order,
      List.flatMap_append]
end

theorem index_shift (c i : Nat) (h : i + 1 ≤ c) : i ≤ c ∧ c - i = (c - (i + 1)) + 1 := by
  omega

theorem pushed_by_rules_owner (rules : RuleArray) :
    ∀ (i : RuleIndex) (c : RuleState), c ∈ pushed_by_rules rules i →
      i ≤ c.ruleIndex ∧
        ∃ rule, rules.get? (c.ruleIndex - i) = some rule ∧ 0 < valueCount rule.top := by
  induction rules with
  | nil => intro i c hc; simp [pushed_by_rules] at hc
  | cons rule rest ih =>
    intro i c hc
    simp only [pushed_by_rules, List.mem_append] at hc
    rcases hc with hc | hc
    · obtain ⟨hpos, hceq⟩ := List.mem_replicate.1 hc
      subst hceq
      refine ⟨Nat.le_refl _, rule, ?_, Nat.pos_of_ne_zero hpos⟩
      simp [built_candidate]
    · obtain ⟨hle, rule2, hget, hpos⟩ := ih (i + 1) c hc
      obtain ⟨hle2, hsub⟩ := index_shift c.ruleIndex i hle
      refine ⟨hle2, rule2, ?_, hpos⟩
      rw [hsub]
      simpa using hget

mutual
theorem pushed_at_owner (rules : RuleArray) :
    ∀ (value : Value) (c : RuleState), c ∈ pushed_at rules value →
      ∃ rule, rules.get? c.ruleIndex = some rule ∧ 0 < valueCount rule.top
  | Term.Sequence values, c, hc => by
    simp only [pushed_at, List.mem_append] at hc
    rcases hc with hc | hc
    · simpa using (pushed_by_rules_owner rules 0 c hc).2
    · exact pushed_by_children_owner rules values c hc
  | Term.Atom a, c, hc => by
    simp only [pushed_at] at hc
    simpa using (pushed_by_rules_owner rules 0 c hc).2
  | Term.Variable x, c, hc => by
    simp only [pushed_at] at hc
    simpa using (pushed_by_rules_owner rules 0 c hc).2
theorem pushed_by_children_owner (rules : RuleArray) :
    ∀ (values : List Value) (c : RuleState), c ∈ pushed_by_children rules values →
      ∃ rule, rules.get? c.ruleIndex = some rule ∧ 0 < valueCount rule.top
  | [], c, hc => by simp [pushed_by_children] at hc
  | value :: rest, c, hc => by
    simp only [pushed_by_children, List.mem_append] at hc
    rcases hc with hc | hc
    · exact pushed_at_owner rules value c hc
    · exact pushed_by_children_owner rules rest c hc
end

theorem step_eq (state : ProgramState) : step state = state := by
  unfold step
  split
  · rfl
  · split
    · rfl
    · split <;> rfl

/-! ## The claims -/

/-- C3: on the one-rule program `a -> b` with value `a`, the candidate that
`spawn_pending` builds has a unifier array of length 4 (not 1) in which no slot
was written: the obligation with lhs `a` and rhs `a` is not stored at slot 0, nor
at any of the slots 1 to 3. -/
theorem spawn_pending_unifiers_unseeded :
    (spawn_pending single_rule_program sample_result).bind
        (fun x => (array_get x.2 0).map
          (fun c => (c.unifiers.length, (entries c.unifiers).map Option.isSome)))
      = some (4, [false, false, false, false]) := by
  decide

/-- C4: on the one-rule program `a -> b` with value `a`, the candidate that
`spawn_pending` builds stores an `env` array of length 8, not 0, because
`create_array(0, sizeof(Value))` reports its capacity as its length. -/
theorem spawn_pending_env_length :
    (spawn_pending single_rule_program sample_result).bind
        (fun x => (array_get x.2 0).map (fun c => (c.env.length, c.env.capacity)))
      = some (8, 8) := by
  decide

/-- C7: on a state whose only frame has an empty `pending` and one entry in
`complete`, `step` changes nothing: the frame is still on `cycles` (length 1, not
0) and `results` is still empty (length 0, not 1). -/
theorem step_exhausted_frame_kept :
    exhausted_state.cycles.length = 1 ∧
    (array_get exhausted_state.cycles 0).map
        (fun c => (c.pending.length, c.complete.length)) = some (0, 1) ∧
    (step exhausted_state).cycles.length = 1 ∧
    (step exhausted_state).results.length = 0 := by
  decide

/-- C8 as stated fails: on a state whose only frame has the pending candidates of
rule 0 and rule 1, the frame after `step` still has both pending, the first one
included, where the claim has only the candidate of rule 1 left. -/
theorem step_pending_head_kept :
    (array_get (step pending_state).cycles ((step pending_state).cycles.length - 1)).map
        (fun c => (entries c.pending).map (Option.map RuleState.ruleIndex))
      = some [some 0, some 1] ∧
    ¬ (array_get (step pending_state).cycles ((step pending_state).cycles.length - 1)).map
        (fun c => (entries c.pending).map (Option.map RuleState.ruleIndex))
      = some [some 1] := by
  decide

/-- C8 amended: for every state whose top frame has a non-empty `pending`, one
call of `step` leaves the whole state unchanged: no candidate is removed from
`pending`, the pending entries keep their order, and nothing else changes. -/
theorem step_pending_unchanged (state : ProgramState) (cycle : CycleState)
    (hrunning : state.cycles.length ≠ 0)
    (htop : array_get state.cycles (state.cycles.length - 1) = some cycle)
    (hpending : cycle.pending.length ≠ 0) :
    step state = state := by
  unfold step
  rw [if_neg hrunning, htop]
  simp only [if_neg hpending]

/-- Witness of the amended C8 on the state with two pending candidates. -/
theorem step_pending_unchanged_witness :
    pending_state.cycles.length ≠ 0 ∧
    array_get pending_state.cycles (pending_state.cycles.length - 1) = some pending_frame ∧
    pending_frame.pending.length ≠ 0 ∧
    step pending_state = pending_state :=
  ⟨by decide, rfl, by decide,
    step_pending_unchanged pending_state pending_frame (by decide) rfl (by decide)⟩

/-- C9: on a state whose `cycles` is empty, `step` leaves the state unchanged:
`cycles` stays empty and `results` is the `results` it was given. -/
theorem step_done (state : ProgramState) (hdone : state.cycles.length = 0) :
    step state = state ∧ (step state).cycles.length = 0 ∧
      (step state).results = state.results := by
  have h : step state = state := by
    unfold step
    rw [if_pos hdone]
  rw [h]
  exact ⟨rfl, hdone, rfl⟩

/-- Witness of C9 on a state with no frame and one accumulated result. -/
theorem step_done_witness :
    done_state.cycles.length = 0 ∧ done_state.results.length = 1 ∧
    (step done_state = done_state ∧ (step done_state).cycles.length = 0 ∧
      (step done_state).results = done_state.results) :=
  ⟨rfl, by decide, step_done done_state rfl⟩

/-- C10: after any number `n` of successive `step` calls, `results` is at least
as long as before and every slot of `results` holds what it held before. -/
theorem step_results_monotone (state : ProgramState) (n : Nat) :
    state.results.length ≤ (step^[n] state).results.length ∧
    ∀ k, array_get (step^[n] state).results k = array_get state.results k := by
  have h : step^[n] state = state := Function.iterate_fixed (step_eq state) n
  rw [h]
  exact ⟨Nat.le_refl _, fun _ => rfl⟩


/-! ## The unifier on variable-free terms -/

theorem nodes_pos (t : Term) : 1 ≤ nodes t := by
  cases t <;> simp [nodes]

theorem queue_nodes_append (xs ys : List UnifyState) :
    queue_nodes (xs ++ ys) = queue_nodes xs + queue_nodes ys := by
  induction xs with
  | nil => simp [queue_nodes]
  | cons u rest ih => simp [queue_nodes, ih, Nat.add_assoc]

theorem queue_nodes_pairs (ls : List Term) :
    queue_nodes (List.zipWith UnifyState.mk ls ls) = nodes_of_list ls := by
  induction ls with
  | nil => rfl
  | cons t rest ih => simp only [List.zipWith_cons_cons, queue_nodes, nodes_of_list, ih]

theorem pairs_reflexive (ls : List Term) (hfree : variable_free_list ls = true) :
    ∀ u ∈ List.zipWith UnifyState.mk ls ls, u.rhs = u.lhs ∧ variable_free u.lhs = true := by
  induction ls with
  | nil => intro u hu; simp at hu
  | cons t rest ih =>
    simp only [variable_free_list, Bool.and_eq_true] at hfree
    intro u hu
    simp only [List.zipWith_cons_cons, List.mem_cons] at hu
    rcases hu with hu | hu
    · subst hu; exact ⟨rfl, hfree.1⟩
    · exact ih hfree.2 u hu

theorem unify_queue_reflexive (checked : Bool) :
    ∀ (fuel : Nat) (queue : List UnifyState) (env : Environment),
      (∀ u ∈ queue, u.rhs = u.lhs ∧ variable_free u.lhs = true) →
      queue_nodes queue ≤ fuel →
      unify_queue checked fuel queue env = some (Except.ok env) := by
  intro fuel
  induction fuel with
  | zero =>
    intro queue env _ hfuel
    cases queue with
    | nil => rfl
    | cons u rest =>
      have hpos := nodes_pos u.lhs
      simp only [queue_nodes] at hfuel
      omega
  | succ fuel ih =>
    intro queue env hq hfuel
    cases queue with
    | nil => rfl
    | cons u rest =>
      obtain ⟨lhs, rhs⟩ := u
      obtain ⟨heq, hfree⟩ := hq { lhs := lhs, rhs := rhs } (List.mem_cons_self _ _)
      simp only at heq hfree
      subst heq
      have hrest : ∀ u ∈ rest, u.rhs = u.lhs ∧ variable_free u.lhs = true :=
        fun u hu => hq u (List.mem_cons_of_mem _ hu)
      simp only [queue_nodes] at hfuel
      cases rhs with
      | Atom a =>
        simp only [unify_queue, if_true]
        exact ih rest env hrest (by simp only [nodes] at hfuel; omega)
      | Sequence ls =>
        simp only [unify_queue, if_true]
        simp only [variable_free] at hfree
        apply ih
        · intro u hu
          rcases List.mem_append.1 hu with hu | hu
          · exact pairs_reflexive ls hfree u hu
          · exact hrest u hu
        · rw [queue_nodes_append, queue_nodes_pairs]
          simp only [nodes] at hfuel
          omega
      | Variable x => simp [variable_free] at hfree

/-- C12: for every variable-free term `t`, under either occurs-check policy,
`unify(t, t, emptyEnv)` succeeds and returns the empty environment, as soon as the
bound on the number of obligations is at least the number of nodes of `t`. -/
theorem unify_reflexive (checked : Bool) (t : Term) (fuel : Nat)
    (hfree : variable_free t = true) (hfuel : nodes t ≤ fuel) :
    unify checked fuel t t emptyEnv = some (Except.ok emptyEnv) := by
  unfold unify
  apply unify_queue_reflexive
  · intro u hu
    simp only [List.mem_singleton] at hu
    subst hu
    exact ⟨rfl, hfree⟩
  · simpa [queue_nodes] using hfuel

/-- Witness of C12 on a term with 4 nodes and a bound of 4. -/
theorem unify_reflexive_witness :
    variable_free ground_term = true ∧ nodes ground_term ≤ 4 ∧
    unify false 4 ground_term ground_term emptyEnv = some (Except.ok emptyEnv) :=
  ⟨by decide, by decide, unify_reflexive false ground_term 4 (by decide) (by decide)⟩


/-! ## The array contract -/

theorem capacity_after_push {α : Type} (array : Array α) (value : α) :
    (array_push array value).capacity
      = if array.length = array.capacity then array.capacity * 2 % U64_MOD
        else array.capacity := by
  unfold array_push array_set
  split <;> rfl

theorem array_push_elementSize {α : Type} (array : Array α) (value : α) :
    (array_push array value).elementSize = array.elementSize := by
  unfold array_push array_set
  split <;> rfl

theorem double_below_wrap (c : Nat) (h : c < 2 ^ 63) : c * 2 % U64_MOD = 2 * c := by
  unfold U64_MOD
  omega

theorem push_all_snoc {α : Type} (array : Array α) (values : List α) (value : α) :
    push_all array (values ++ [value]) = array_push (push_all array values) value := by
  simp [push_all]

theorem take_succ_of_lt {α : Type} (values : List α) (n : Nat) (h : n < values.length) :
    values.take (n + 1) = values.take n ++ [values[n]] := by
  rw [List.take_succ, List.getElem?_eq_getElem h]
  rfl

/-- C14: for every well-formed array with capacity below 2^63, `array_push`
doubles the capacity exactly when the array is full before the push and leaves it
unchanged exactly when it is not; and along any sequence of pushes in which every
array that receives a push has capacity below 2^63, no push decreases the
capacity, which therefore never falls below the initial one. -/
theorem array_push_capacity {α : Type} (array : Array α) (value : α) (values : List α)
    (hwf : well_formed array) (hcap : array.capacity < 2 ^ 63)
    (hseq : ∀ n, n < values.length → (push_all array (values.take n)).capacity < 2 ^ 63) :
    ((array_push array value).capacity = 2 * array.capacity ↔ array.length = array.capacity) ∧
    ((array_push array value).capacity = array.capacity ↔ array.length ≠ array.capacity) ∧
    (∀ n, n < values.length →
      (push_all array (values.take n)).capacity
        ≤ (push_all array (values.take (n + 1))).capacity) ∧
    (∀ n, n ≤ values.length → array.capacity ≤ (push_all array (values.take n)).capacity) := by
  have hpos : 1 ≤ array.capacity := hwf.1
  have hstep : ∀ n, n < values.length →
      (push_all array (values.take n)).capacity
        ≤ (push_all array (values.take (n + 1))).capacity := by
    intro n hn
    rw [take_succ_of_lt values n hn, push_all_snoc, capacity_after_push]
    split
    · rw [double_below_wrap _ (hseq n hn)]; omega
    · exact Nat.le_refl _
  refine ⟨?_, ?_, hstep, ?_⟩
  · rw [capacity_after_push]
    split
    · rename_i hfull
      rw [double_below_wrap _ hcap]
      exact ⟨fun _ => hfull, fun _ => rfl⟩
    · rename_i hfree
      constructor
      · intro h; omega
      · intro h; exact absurd h hfree
  · rw [capacity_after_push]
    split
    · rename_i hfull
      rw [double_below_wrap _ hcap]
      constructor
      · intro h; omega
      · intro h; exact absurd hfull h
    · rename_i hfree
      exact ⟨fun _ => hfree, fun _ => rfl⟩
  · intro n
    induction n with
    | zero => intro _; exact Nat.le_refl _
    | succ n ih =>
      intro hn
      exact Nat.le_trans (ih (by omega)) (hstep n (by omega))

/-- Witness of C14: three pushes on a full array of two atoms. -/
theorem array_push_capacity_witness :
    well_formed full_values ∧ full_values.capacity < 2 ^ 63 ∧
    (∀ n, n < [Term.Atom 1, Term.Atom 2, Term.Atom 3].length →
      (push_all full_values ([Term.Atom 1, Term.Atom 2, Term.Atom 3].take n)).capacity
        < 2 ^ 63) ∧
    (push_all full_values [Term.Atom 1, Term.Atom 2, Term.Atom 3]).capacity = 8 ∧
    (((array_push full_values (Term.Atom 99)).capacity = 2 * full_values.capacity
        ↔ full_values.length = full_values.capacity) ∧
    ((array_push full_values (Term.Atom 99)).capacity = full_values.capacity
        ↔ full_values.length ≠ full_values.capacity) ∧
    (∀ n, n < [Term.Atom 1, Term.Atom 2, Term.Atom 3].length →
      (push_all full_values ([Term.Atom 1, Term.Atom 2, Term.Atom 3].take n)).capacity
        ≤ (push_all full_values ([Term.Atom 1, Term.Atom 2, Term.Atom 3].take (n + 1))).capacity) ∧
    (∀ n, n ≤ [Term.Atom 1, Term.Atom 2, Term.Atom 3].length →
      full_values.capacity
        ≤ (push_all full_values ([Term.Atom 1, Term.Atom 2, Term.Atom 3].take n)).capacity)) :=
  ⟨by decide, by decide, by decide, by decide,
    array_push_capacity full_values (Term.Atom 99) [Term.Atom 1, Term.Atom 2, Term.Atom 3]
      (by decide) (by decide) (by decide)⟩

theorem create_array_eq (α : Type) (n s : Nat) (hs : 1 ≤ s) :
    create_array α n s
      = some { length := reported_length n s, capacity := reported_length n s,
               elementSize := s, data := fun _ => none } := by
  unfold create_array reported_length
  by_cases h1 : n * s % U64_MOD ≥ 64
  · simp [h1]
  · by_cases h2 : s ≥ 64
    · simp [h1, h2]
    · have h3 : s ≠ 0 := by omega
      simp [h1, h2, h3]

theorem reported_length_pos (n s : Nat) (hs : 1 ≤ s) : 1 ≤ reported_length n s := by
  unfold reported_length
  split
  · rename_i h1
    rcases Nat.eq_zero_or_pos n with h0 | hpos
    · subst h0; simp at h1
    · exact hpos
  · split
    · exact Nat.le_refl 1
    · rename_i h2
      have hlt : s ≤ 64 := by omega
      exact (Nat.le_div_iff_mul_le (by omega)).2 (by omega)

/-- C16 as stated fails: `create_array(1, 63)` has `n * s = 63 < 64` and reports
length 1, which is `n`. -/
theorem create_array_reports_requested :
    1 * 63 % U64_MOD < 64 ∧
    (create_array Value 1 63).map (fun a => (a.length, a.capacity)) = some (1, 1) := by
  decide

/-- C16 amended: for every `n` and every `U64` element size `s >= 1`,
`create_array(n, s)` does not divide by zero and returns an array with
`elementSize` `s` and `length = capacity = L`, where `L` is `n` if `n * s` (modulo
2^64) is at least 64, else 1 if `s >= 64`, else `floor(64 / s)`; when `n * s < 64`
the reported length is not `n` unless `s < 64` and `n = floor(64 / s)`;
`create_array(0, 8)` reports length 8; and for `s = 0` the computation divides by
zero. -/
theorem create_array_reported (α : Type) (n s : Nat) (hs : 1 ≤ s) (hrange : s < U64_MOD) :
    (∃ a, create_array α n s = some a ∧ a.elementSize = s ∧
      a.length = reported_length n s ∧ a.capacity = reported_length n s ∧
      (n * s % U64_MOD < 64 → ¬ (s < 64 ∧ n = 64 / s) → a.length ≠ n)) ∧
    (create_array α 0 8).map (fun a => a.length) = some 8 ∧
    create_array α n 0 = none := by
  refine ⟨⟨_, create_array_eq α n s hs, rfl, rfl, rfl, ?_⟩, ?_, ?_⟩
  · intro hsmall hnot
    simp only [reported_length]
    rw [if_neg (by omega)]
    split
    · rename_i hbig
      intro h1
      rw [← h1, Nat.one_mul, Nat.mod_eq_of_lt hrange] at hsmall
      omega
    · rename_i hlow
      intro h
      exact hnot ⟨by omega, h.symm⟩
  · rfl
  · simp [create_array]

/-- Witness of the amended C16 on `create_array(0, 8)`. -/
theorem create_array_reported_witness :
    1 ≤ 8 ∧ 8 < U64_MOD ∧ reported_length 0 8 = 8 ∧
    ((∃ a, create_array Value 0 8 = some a ∧ a.elementSize = 8 ∧
      a.length = reported_length 0 8 ∧ a.capacity = reported_length 0 8 ∧
      (0 * 8 % U64_MOD < 64 → ¬ (8 < 64 ∧ 0 = 64 / 8) → a.length ≠ 0)) ∧
    (create_array Value 0 8).map (fun a => a.length) = some 8 ∧
    create_array Value 0 0 = none) :=
  ⟨by decide, by decide, by decide, create_array_reported Value 0 8 (by decide) (by decide)⟩

/-- C17: the predicate `1 <= capacity` and `length <= capacity` holds for the array
that `create_array` returns for an element size of at least 1, and `array_set` and,
under capacity below 2^63, `array_push` preserve it; the slot that `array_push`
writes, index (old length), is strictly below the capacity in force at the write,
which is the capacity after the call. -/
theorem well_formed_preserved {α : Type} (n s : Nat) (array : Array α) (i : Nat) (value : α)
    (hs : 1 ≤ s) (hwf : well_formed array) (hcap : array.capacity < 2 ^ 63) :
    (∃ a, create_array α n s = some a ∧ well_formed a) ∧
    well_formed (array_set array i value) ∧
    well_formed (array_push array value) ∧
    array.length < (array_push array value).capacity := by
  obtain ⟨hpos, hle⟩ := hwf
  have hfit : array.length + 1 < U64_MOD := by unfold U64_MOD; omega
  have hlen : (array_push array value).length = array.length + 1 := by
    rw [array_push_length]; exact Nat.mod_eq_of_lt hfit
  have hwrite : array.length < (array_push array value).capacity := by
    rw [capacity_after_push]
    split
    · rename_i hfull
      rw [double_below_wrap _ hcap]; omega
    · rename_i hfree
      omega
  refine ⟨⟨_, create_array_eq α n s hs, reported_length_pos n s hs, Nat.le_refl _⟩,
    ⟨hpos, hle⟩, ⟨?_, ?_⟩, hwrite⟩
  · rw [capacity_after_push]
    split
    · rw [double_below_wrap _ hcap]; omega
    · exact hpos
  · rw [hlen]; exact hwrite

/-- Witness of C17 on `create_array(0, 8)` and the full array of two atoms. -/
theorem well_formed_preserved_witness :
    1 ≤ 8 ∧ well_formed full_values ∧ full_values.capacity < 2 ^ 63 ∧
    ((∃ a, create_array Value 0 8 = some a ∧ well_formed a) ∧
    well_formed (array_set full_values 1 (Term.Atom 99)) ∧
    well_formed (array_push full_values (Term.Atom 99)) ∧
    full_values.length < (array_push full_values (Term.Atom 99)).capacity) :=
  ⟨by decide, by decide, by decide,
    well_formed_preserved 0 8 full_values 1 (Term.Atom 99) (by decide) (by decide) (by decide)⟩


/-! ## The addressed array -/

theorem offset_distinct (s k n : Nat) (hs : 1 ≤ s) (hk : k < n) (hn : n * s < U64_MOD) :
    k * s % U64_MOD ≠ n * s % U64_MOD := by
  have hlt : k * s < n * s := Nat.mul_lt_mul_of_pos_right hk hs
  rw [Nat.mod_eq_of_lt hn, Nat.mod_eq_of_lt (Nat.lt_trans hlt hn)]
  exact Nat.ne_of_lt hlt

theorem bytes_cover_length (n s : Nat) (hs : 1 ≤ s) (h : (n + 1) * s < U64_MOD) :
    n * s < U64_MOD ∧ n + 1 < U64_MOD := by
  have h1 : n * s ≤ (n + 1) * s := Nat.mul_le_mul_right s (Nat.le_succ n)
  have h2 : n + 1 ≤ (n + 1) * s := Nat.le_mul_of_pos_right (n + 1) hs
  exact ⟨Nat.lt_of_le_of_lt h1 h, Nat.lt_of_le_of_lt h2 h⟩

theorem addressed_push_length {α : Type} (array : Array α) (value : α) :
    (addressed_array_push array value).length = (array.length + 1) % U64_MOD := by
  unfold addressed_array_push addressed_array_set
  split <;> rfl

theorem addressed_push_elementSize {α : Type} (array : Array α) (value : α) :
    (addressed_array_push array value).elementSize = array.elementSize := by
  unfold addressed_array_push addressed_array_set
  split <;> rfl

theorem addressed_get_push {α : Type} (array : Array α) (value : α) (k : Nat) :
    addressed_array_get (addressed_array_push array value) k
      = if byte_offset array k = byte_offset array array.length then some value
        else addressed_array_get array k := by
  unfold addressed_array_push addressed_array_set addressed_array_get byte_offset
  split <;> rfl

theorem addressed_get_push_below {α : Type} (array : Array α) (value : α) (k : Nat)
    (hs : 1 ≤ array.elementSize) (hbytes : (array.length + 1) * array.elementSize < U64_MOD)
    (hk : k < array.length) :
    addressed_array_get (addressed_array_push array value) k = addressed_array_get array k := by
  rw [addressed_get_push, if_neg]
  exact offset_distinct _ k array.length hs hk (bytes_cover_length _ _ hs hbytes).1

theorem addressed_push_all_append {α : Type} (array : Array α) (xs ys : List α) :
    addressed_push_all array (xs ++ ys)
      = addressed_push_all (addressed_push_all array xs) ys := by
  simp [addressed_push_all, List.foldl_append]

theorem addressed_spawn_alternatives_eq (i : RuleIndex) (n : Nat) :
    ∀ result : RuleStateArray,
      addressed_spawn_alternatives i n result
        = some (addressed_push_all result (List.replicate n (built_candidate i))) := by
  induction n with
  | zero => intro result; rfl
  | succ n ih =>
    intro result
    simp only [addressed_spawn_alternatives, create_array_env, create_array_unifiers,
      Option.bind_eq_bind, Option.some_bind, ih, List.replicate_succ, addressed_push_all,
      List.foldl_cons]
    rfl

theorem addressed_spawn_rules_eq (rules : RuleArray) :
    ∀ (i : RuleIndex) (result : RuleStateArray),
      addressed_spawn_rules rules i result
        = some (addressed_push_all result (pushed_by_rules rules i)) := by
  induction rules with
  | nil => intro i result; rfl
  | cons rule rest ih =>
    intro i result
    simp only [addressed_spawn_rules, addressed_spawn_alternatives_eq, Option.bind_eq_bind,
      Option.some_bind, ih, pushed_by_rules, addressed_push_all_append]

mutual
theorem addressed_spawn_pending_at_eq (rules : RuleArray) :
    ∀ (value : Value) (result : RuleStateArray),
      addressed_spawn_pending_at rules value result
        = some ({ rules := rules, value := value },
            addressed_push_all result (pushed_at rules value))
  | Term.Sequence values, result => by
    simp only [addressed_spawn_pending_at, addressed_spawn_rules_eq, Option.bind_eq_bind,
      Option.some_bind, addressed_spawn_children_eq rules values, pushed_at,
      addressed_push_all_append, Option.pure_def]
  | Term.Atom a, result => by
    simp only [addressed_spawn_pending_at, addressed_spawn_rules_eq, Option.bind_eq_bind,
      Option.some_bind, pushed_at, Option.pure_def]
  | Term.Variable x, result => by
    simp only [addressed_spawn_pending_at, addressed_spawn_rules_eq, Option.bind_eq_bind,
      Option.some_bind, pushed_at, Option.pure_def]
theorem addressed_spawn_children_eq (rules : RuleArray) :
    ∀ (values : List Value) (result : RuleStateArray),
      addressed_spawn_children rules values result
        = some (addressed_push_all result (pushed_by_children rules values))
  | [], result => rfl
  | value :: rest, result => by
    simp only [addressed_spawn_children, addressed_spawn_pending_at_eq rules value,
      Option.bind_eq_bind, Option.some_bind, addressed_spawn_children_eq rules rest,
      pushed_by_children, addressed_push_all_append]
end

theorem addressed_agrees_with_slots {α : Type} (array : Array α) (i k : Nat) (value : α)
    (hs : 1 ≤ array.elementSize) (hi : i * array.elementSize < U64_MOD)
    (hk : k * array.elementSize < U64_MOD) :
    addressed_array_get (addressed_array_set array i value) k
      = array_get (array_set { array with data := fun n => array.data (byte_offset array n) }
          i value) k := by
  unfold addressed_array_get addressed_array_set array_get array_set byte_offset
  simp only [Nat.mod_eq_of_lt hi, Nat.mod_eq_of_lt hk]
  by_cases h : k = i
  · subst h; simp
  · have hne : k * array.elementSize ≠ i * array.elementSize := by
      intro heq
      exact h (Nat.eq_of_mul_eq_mul_right hs heq)
    simp [h, hne]

/-- C13 as stated fails: `create_array(2^61 + 8, 8)` keeps the length `2^61 + 8`
over 64 bytes; after one `array_push` (storage 128 bytes) and `array_set` at index
9 (byte offset 72), the array is well-formed, index 9 is below its length and
holds 97; the next `array_push` writes index `2^61 + 9` at byte offset 72 as well,
and index 9 then holds the pushed 98. -/
theorem array_push_overwrites_slot :
    wrapped_array_pushed.map (fun a =>
        (decide (1 ≤ a.capacity ∧ a.length ≤ a.capacity), decide (9 < a.length)))
      = some (true, true) ∧
    wrapped_array_pushed.map (fun a =>
        (storage_bytes a, byte_offset a 9, byte_offset a a.length))
      = some (128, 72, 72) ∧
    wrapped_array_pushed.map (fun a =>
        (addressed_array_get a 9, addressed_array_get (addressed_array_push a 98) 9))
      = some (some 97, some 98) := by
  decide

/-- C13 amended: for every well-formed array with `elementSize >= 1` whose byte
size with one more element, `(length + 1) * elementSize`, is below 2^64, and every
value `v`, after `array_push` the length is the old length plus 1, the element at
index (old length) is `v`, the element at every index below the old length is
unchanged, and `elementSize` is unchanged. -/
theorem array_push_contract {α : Type} (array : Array α) (value : α)
    (hwf : well_formed array) (hs : 1 ≤ array.elementSize)
    (hbytes : (array.length + 1) * array.elementSize < U64_MOD) :
    (addressed_array_push array value).length = array.length + 1 ∧
    addressed_array_get (addressed_array_push array value) array.length = some value ∧
    (∀ k, k < array.length →
      addressed_array_get (addressed_array_push array value) k
        = addressed_array_get array k) ∧
    (addressed_array_push array value).elementSize = array.elementSize := by
  have _ := hwf
  refine ⟨?_, ?_, ?_, addressed_push_elementSize array value⟩
  · rw [addressed_push_length]
    exact Nat.mod_eq_of_lt (bytes_cover_length _ _ hs hbytes).2
  · simp [addressed_get_push]
  · intro k hk
    exact addressed_get_push_below array value k hs hbytes hk

/-- Witness of the amended C13 on a full array of two atoms. -/
theorem array_push_contract_witness :
    well_formed full_values ∧ 1 ≤ full_values.elementSize ∧
    (full_values.length + 1) * full_values.elementSize < U64_MOD ∧
    ((addressed_array_push full_values (Term.Atom 99)).length = full_values.length + 1 ∧
    addressed_array_get (addressed_array_push full_values (Term.Atom 99)) full_values.length
      = some (Term.Atom 99) ∧
    (∀ k, k < full_values.length →
      addressed_array_get (addressed_array_push full_values (Term.Atom 99)) k
        = addressed_array_get full_values k) ∧
    (addressed_array_push full_values (Term.Atom 99)).elementSize = full_values.elementSize) :=
  ⟨by decide, by decide, by decide,
    array_push_contract full_values (Term.Atom 99) (by decide) (by decide) (by decide)⟩

/-- C15 as stated fails: `create_array(2^61 + 8, 8)` keeps the length `2^61 + 8`
over 64 bytes; with 97 set at index 0, index `2^61` is below the length and differs
from 0, yet its byte offset `2^61 * 8` is 0 modulo 2^64, so `array_set` of 98 there
changes what `array_get` yields at index 0. -/
theorem array_set_overwrites_slot :
    wrapped_array_set.map (fun a => (a.length, storage_bytes a)) = some (2 ^ 61 + 8, 64) ∧
    wrapped_array_set.map (fun a => (byte_offset a (2 ^ 61), byte_offset a 0)) = some (0, 0) ∧
    wrapped_array_set.map (fun a =>
        (addressed_array_get a 0,
          addressed_array_get (addressed_array_set a (2 ^ 61) 98) 0))
      = some (some 97, some 98) := by
  decide

/-- C15 amended: for every array with `elementSize >= 1` whose byte size
`length * elementSize` is below 2^64, every index `i` below its length and every
value `v`, `array_get` at `i` after `array_set` at `i` yields `v`, `array_get` at
every other index `j` below the length yields what it yielded before, and
`array_set` leaves `length`, `capacity` and `elementSize` unchanged. -/
theorem array_set_get {α : Type} (array : Array α) (i j : Nat) (value : α)
    (hs : 1 ≤ array.elementSize) (hbytes : array.length * array.elementSize < U64_MOD)
    (hi : i < array.length) (hj : j < array.length) :
    addressed_array_get (addressed_array_set array i value) i = some value ∧
    (j ≠ i →
      addressed_array_get (addressed_array_set array i value) j
        = addressed_array_get array j) ∧
    (addressed_array_set array i value).length = array.length ∧
    (addressed_array_set array i value).capacity = array.capacity ∧
    (addressed_array_set array i value).elementSize = array.elementSize := by
  refine ⟨?_, ?_, rfl, rfl, rfl⟩
  · simp [addressed_array_get, addressed_array_set, byte_offset]
  · intro hne
    have hilt : i * array.elementSize < U64_MOD :=
      Nat.lt_of_le_of_lt (Nat.mul_le_mul_right _ (Nat.le_of_lt hi)) hbytes
    have hjlt : j * array.elementSize < U64_MOD :=
      Nat.lt_of_le_of_lt (Nat.mul_le_mul_right _ (Nat.le_of_lt hj)) hbytes
    have hoff : j * array.elementSize % U64_MOD ≠ i * array.elementSize % U64_MOD := by
      rw [Nat.mod_eq_of_lt hilt, Nat.mod_eq_of_lt hjlt]
      intro heq
      exact hne (Nat.eq_of_mul_eq_mul_right hs heq)
    simp [addressed_array_get, addressed_array_set, byte_offset, hoff]

/-- Witness of the amended C15: setting index 0 of the array of the atoms `a` and
`b`, and reading index 1. -/
theorem array_set_get_witness :
    1 ≤ full_values.elementSize ∧ full_values.length * full_values.elementSize < U64_MOD ∧
    0 < full_values.length ∧ 1 < full_values.length ∧
    (addressed_array_get (addressed_array_set full_values 0 (Term.Atom 99)) 0
      = some (Term.Atom 99) ∧
    (1 ≠ 0 →
      addressed_array_get (addressed_array_set full_values 0 (Term.Atom 99)) 1
        = addressed_array_get full_values 1) ∧
    (addressed_array_set full_values 0 (Term.Atom 99)).length = full_values.length ∧
    (addressed_array_set full_values 0 (Term.Atom 99)).capacity = full_values.capacity ∧
    (addressed_array_set full_values 0 (Term.Atom 99)).elementSize
      = full_values.elementSize) :=
  ⟨by decide, by decide, by decide, by decide,
    array_set_get full_values 0 1 (Term.Atom 99) (by decide) (by decide) (by decide)
      (by decide)⟩


end Veritas
